import Mathlib

/-!
Verification of the spoken-text normalization and session state machine of
the `tiny_speechtotext` TinyMCE plugin (`amd/src/commands.js`).

Modelling conventions:
* JavaScript strings are modelled as `List Char`; a JS string value `s`
  appears in statements as `"s".data`.
* `String.prototype.toLowerCase` / `toUpperCase` are modelled by
  `Char.toLower` / `Char.toUpper` (basic-latin case mapping, which is all the
  code relies on: the capitalization guard regexes are `[a-z]` ranges).
* The regex `\s` and `String.prototype.trim`'s whitespace class are modelled
  by `jsWhitespace`.
* The `while (i < words.length)` loop of `processTextWithPunctuation` is
  embedded with an explicit iteration budget (`fuel`) equal to the number of
  words not yet consumed; the cursor advances by at least one word per
  iteration, so this budget is exact (proved below).
* The TinyMCE editor is modelled by its plain-text content (`List Char`);
  `insertContent` appends at the end.  The floating preview panel is modelled
  by `Option (List Char)`: `none` when the container is absent, `some t` when
  it shows text `t`.
-/

/-- Whitespace class of the JS regex `\s` (restricted to the control/space
characters relevant here) and of `String.prototype.trim`. -/
def jsWhitespace (c : Char) : Bool :=
  c == ' ' || c == '\t' || c == '\n' || c == '\r' || c == '\x0b' || c == '\x0c'

/-- Drop trailing whitespace, as the suffix end of `String.prototype.trim`. -/
def dropTrailingWs (l : List Char) : List Char :=
  (l.reverse.dropWhile jsWhitespace).reverse

/-- Model of `String.prototype.trim`: drop leading and trailing whitespace. -/
def trimChars (l : List Char) : List Char :=
  dropTrailingWs (l.dropWhile jsWhitespace)

/-- Helper for `splitWs`: accumulates the current word (reversed) while
scanning.  Structural recursion, so it computes by `rfl`. -/
def splitWsAux : List Char → List Char → List (List Char)
  | [], acc => if acc.isEmpty then [] else [acc.reverse]
  | c :: rest, acc =>
    if jsWhitespace c then
      if acc.isEmpty then splitWsAux rest [] else acc.reverse :: splitWsAux rest []
    else splitWsAux rest (c :: acc)

/-- Model of `text.split(/\s+/)` on trimmed text: split into maximal runs of
non-whitespace characters. -/
def splitWs (l : List Char) : List (List Char) :=
  splitWsAux l []

/-- The fixed spoken-phrase to punctuation-symbol table (`punctuationMap`,
commands.js lines 510-532).  The apostrophe symbol is written as its code
point, `Char.ofNat 39`. -/
def punctuationMap : List (List Char × List Char) :=
  [("full stop".data, ".".data),
   ("period".data, ".".data),
   ("dot".data, ".".data),
   ("comma".data, ",".data),
   ("question mark".data, "?".data),
   ("exclamation mark".data, "!".data),
   ("exclamation point".data, "!".data),
   ("semicolon".data, ";".data),
   ("semi colon".data, ";".data),
   ("colon".data, ":".data),
   ("dash".data, "-".data),
   ("hyphen".data, "-".data),
   ("apostrophe".data, [Char.ofNat 39]),
   ("quotation mark".data, "\"".data),
   ("quote".data, "\"".data),
   ("open bracket".data, "(".data),
   ("close bracket".data, ")".data),
   ("open parenthesis".data, "(".data),
   ("close parenthesis".data, ")".data),
   ("new line".data, "\n".data),
   ("new paragraph".data, "\n\n".data)]

/-- Punctuation symbols that trigger capitalization of the next word
(`sentenceEndingPunctuation`, commands.js line 535). -/
def sentenceEndingPunctuation : List (List Char) :=
  [".".data, "?".data, "!".data, "\n\n".data]

/-- Model of `isSentenceEnding` (commands.js line 543). -/
def isSentenceEnding (symbol : List Char) : Bool :=
  sentenceEndingPunctuation.contains symbol

/-- Model of `getPunctuationSymbol` (commands.js lines 551-554): lowercase,
trim, then look the phrase up in the table. -/
def getPunctuationSymbol (phrase : List Char) : Option (List Char) :=
  punctuationMap.lookup (trimChars (phrase.map Char.toLower))

/-- Model of `Array.prototype.join(' ')`. -/
def joinWords : List (List Char) → List Char
  | [] => []
  | [w] => w
  | w :: ws => w ++ ' ' :: joinWords ws

/-- One window attempt of `matchPunctuation`: the body of its `for` loop for
a given `wordCount` (commands.js lines 566-572): guard
`startIndex + wordCount <= words.length`, join the slice with single spaces,
and look it up. -/
def matchWindow (words : List (List Char)) (startIndex wordCount : Nat) :
    Option (List Char) :=
  if startIndex + wordCount ≤ words.length then
    getPunctuationSymbol (joinWords ((words.drop startIndex).take wordCount))
  else none

/-- Model of `matchPunctuation` (commands.js lines 563-576): try window
lengths 3, then 2, then 1, returning the symbol and the number of words
consumed for the first match. -/
def matchPunctuation (words : List (List Char)) (startIndex : Nat) :
    Option (List Char × Nat) :=
  match matchWindow words startIndex 3 with
  | some symbol => some (symbol, 3)
  | none =>
    match matchWindow words startIndex 2 with
    | some symbol => some (symbol, 2)
    | none =>
      match matchWindow words startIndex 1 with
      | some symbol => some (symbol, 1)
      | none => none

/-- Model of `capitalizeWord` (commands.js lines 584-589): uppercase the
first character, keep the rest. -/
def capitalizeWord : List Char → List Char
  | [] => []
  | c :: rest => Char.toUpper c :: rest

/-- Model of `getSpacingBefore` (commands.js lines 597-605): a single space
unless the result is empty or already ends in a space or newline. -/
def getSpacingBefore (currentResult : List Char) : List Char :=
  match currentResult.getLast? with
  | none => []
  | some c => if c = '\n' ∨ c = ' ' then [] else [' ']

/-- Spacing appended after an emitted punctuation symbol (commands.js lines
631-633): one space, except after a newline or blank line. -/
def symbolSpacing (symbol : List Char) : List Char :=
  if symbol = "\n".data ∨ symbol = "\n\n".data then [] else [' ']

/-- The `while (i < words.length)` loop of `processTextWithPunctuation`
(commands.js lines 623-654), with an explicit iteration budget `fuel`.
Each iteration either resolves a punctuation phrase (append the symbol with
no preceding space, then its trailing spacing, set the capitalize flag on
sentence-ending symbols, advance by the words consumed) or appends a literal
word (spacing before, capitalize the first character when the flag is set,
advance by one). -/
def processWordsAux : Nat → List (List Char) → Nat → List Char → Bool → List Char
  | 0, _, _, result, _ => result
  | fuel + 1, words, i, result, shouldCapitalize =>
    if h : i < words.length then
      match matchPunctuation words i with
      | some (symbol, wordsConsumed) =>
        processWordsAux fuel words (i + wordsConsumed)
          (result ++ symbol ++ symbolSpacing symbol)
          (if isSentenceEnding symbol then true else shouldCapitalize)
      | none =>
        processWordsAux fuel words (i + 1)
          (result ++ getSpacingBefore result ++
            (if shouldCapitalize then capitalizeWord (words.get ⟨i, h⟩)
             else words.get ⟨i, h⟩))
          false
    else result

/-- The loop of `processTextWithPunctuation` started at cursor `i`: the
iteration budget is the number of words not yet consumed. -/
def processLoop (words : List (List Char)) (i : Nat) (result : List Char)
    (shouldCapitalize : Bool) : List Char :=
  processWordsAux (words.length - i) words i result shouldCapitalize

/-- Model of `processTextWithPunctuation` (commands.js lines 613-657):
return `""` for empty or whitespace-only input, otherwise split the trimmed
text into words and run the loop from the start with an empty result and the
capitalize flag cleared. -/
def processTextWithPunctuation (text : List Char) : List Char :=
  if trimChars text = [] then []
  else processLoop (splitWs (trimChars text)) 0 [] false

/-- Model of the regex test `/^[a-z]/.test(t)` (commands.js line 812). -/
def startsWithLowerAZ (t : List Char) : Bool :=
  match t with
  | c :: _ => 'a' ≤ c && c ≤ 'z'
  | [] => false

/-- Model of the regex test `/[.!?]\s*$/.test(s)` (commands.js line 817):
after discarding trailing whitespace, the last character is `.`, `!` or `?`. -/
def endsWithSentencePunct (s : List Char) : Bool :=
  match s.reverse.dropWhile jsWhitespace with
  | c :: _ => c == '.' || c == '!' || c == '?'
  | [] => false

/-- Model of `shouldCapitalizeText` (commands.js lines 810-818). -/
def shouldCapitalizeText (editorContent textToInsert : List Char) : Bool :=
  if editorContent.length = 0 || !startsWithLowerAZ textToInsert then false
  else endsWithSentencePunct (trimChars editorContent)

/-- Model of the regex test of the char class of punctuation starters,
used at commands.js line 838. -/
def startsWithPunctChar (t : List Char) : Bool :=
  match t with
  | c :: _ =>
    c == '.' || c == ',' || c == '!' || c == '?' || c == ';' || c == ':' ||
      c == ')' || c == ']'
  | [] => false

/-- Model of `needsSpaceBefore` (commands.js lines 827-843). -/
def needsSpaceBefore (editorContent textToInsert : List Char) : Bool :=
  if editorContent.length = 0 then false
  else if editorContent.getLast? == some ' ' || editorContent.getLast? == some '\n' then
    false
  else if startsWithPunctChar textToInsert then false
  else true

/-- Model of `prepareTextForInsertion` (commands.js lines 852-868); the
editor's current plain-text content is passed in as `currentContent`. -/
def prepareTextForInsertion (currentContent text : List Char) : List Char :=
  let afterCap :=
    if shouldCapitalizeText currentContent text then capitalizeWord text else text
  if needsSpaceBefore currentContent afterCap then ' ' :: afterCap else afterCap

/-- Rendition of the specification's commit-time capitalization condition,
written from its words: the document is non-empty, the normalized text's
first character is a lowercase letter, and the trimmed document content ends
with `.`, `!`, or `?`. -/
def specCapitalizeCond (d t : List Char) : Bool :=
  !d.isEmpty && startsWithLowerAZ t &&
    (match (trimChars d).getLast? with
     | some c => c == '.' || c == '!' || c == '?'
     | none => false)

/-- Rendition of the specification's commit-time spacing condition, written
from its words: the document is non-empty, does not end in a space or
newline, and the normalized text does not start with one of
`. , ! ? ; : ) ]`. -/
def specPrependSpaceCond (d t : List Char) : Bool :=
  !d.isEmpty && !(d.getLast? == some ' ' || d.getLast? == some '\n') &&
    !startsWithPunctChar t

/-! ## Session state machine -/

/-- One result slot of a speech-recognition event: literal text plus the
final/interim marker. -/
structure Slot where
  text : List Char
  isFinal : Bool
deriving DecidableEq

/-- A transcript-revision event: the first result index to read, and the
ordered result slots. -/
structure RecognitionEvent where
  resultIndex : Nat
  results : List Slot
deriving DecidableEq

/-- The per-editor session state (`getEditorState`, commands.js lines
497-507).  The preview container is `none` when absent and `some t` when it
displays text `t`. -/
structure EditorState where
  recognitionInit : Bool
  listening : Bool
  finalTranscript : List Char
  preview : Option (List Char)
deriving DecidableEq

/-- Model of `showPreview` (commands.js lines 664-787): create the container
with empty text unless it already exists. -/
def showPreview (st : EditorState) : EditorState :=
  match st.preview with
  | some _ => st
  | none => { st with preview := some [] }

/-- Model of `hidePreview` (commands.js lines 794-801): remove the
container. -/
def hidePreview (st : EditorState) : EditorState :=
  { st with preview := none }

/-- Model of `updatePreview` (commands.js lines 930-940): when the container
exists, display the text processed with punctuation conversion. -/
def updatePreview (st : EditorState) (text : List Char) : EditorState :=
  match st.preview with
  | some _ => { st with preview := some (processTextWithPunctuation text) }
  | none => st

/-- Model of `handleFinalTranscript` (commands.js lines 876-893): when the
accumulated final transcript is non-empty, normalize it, prepare it against
the current document content, insert it, reset the accumulator and clear the
preview.  Returns the new document content and state. -/
def handleFinalTranscript (doc : List Char) (st : EditorState) :
    List Char × EditorState :=
  if st.finalTranscript = [] then (doc, st)
  else
    let processedText := processTextWithPunctuation st.finalTranscript
    let textToInsert := prepareTextForInsertion doc processedText
    (doc ++ textToInsert, updatePreview { st with finalTranscript := [] } [])

/-- The slot-collection loop of `handleRecognitionResult` (commands.js lines
906-913): final slots append their text plus one space to the accumulated
final transcript, interim slots append their text to the transient interim
accumulator. -/
def collectResults : List Slot → List Char → List Char → List Char × List Char
  | [], finalT, interimT => (finalT, interimT)
  | s :: rest, finalT, interimT =>
    if s.isFinal then collectResults rest (finalT ++ s.text ++ [' ']) interimT
    else collectResults rest finalT (interimT ++ s.text)

/-- Model of `handleRecognitionResult` (commands.js lines 902-922). -/
def handleRecognitionResult (doc : List Char) (st : EditorState)
    (ev : RecognitionEvent) : List Char × EditorState :=
  let collected :=
    collectResults (ev.results.drop ev.resultIndex) st.finalTranscript []
  let st1 := { st with finalTranscript := collected.1 }
  let st2 := if collected.2 = [] then st1 else updatePreview st1 collected.2
  handleFinalTranscript doc st2

/-- Model of `handleAction` (commands.js lines 947-969), the start/stop
toggle.  `startOk` abstracts whether initializing and starting the external
speech-recognition capability succeeds; on failure the `catch` block hides
the preview and the state is otherwise unchanged. -/
def handleAction (startOk : Bool) (st : EditorState) : EditorState :=
  if !st.listening then
    if startOk then
      { showPreview st with recognitionInit := true, listening := true }
    else hidePreview st
  else hidePreview { st with listening := false }

/-- Model of the `onerror` handler installed by `initializeRecognition`
(commands.js lines 995-999). -/
def onRecognitionError (st : EditorState) : EditorState :=
  hidePreview { st with listening := false }

/-- Model of the `onend` handler installed by `initializeRecognition`
(commands.js lines 1002-1005). -/
def onRecognitionEnd (st : EditorState) : EditorState :=
  hidePreview { st with listening := false }

/-- Model of the preview close-button handler (commands.js lines 763-769):
stop the recognition if it is listening and initialized, then hide the
preview. -/
def closePreviewClick (st : EditorState) : EditorState :=
  hidePreview
    (if st.listening && st.recognitionInit then { st with listening := false }
     else st)

/-- Events driving one session: toggle presses, transcript-revision events,
source errors, source end, and preview close clicks. -/
inductive SessionEv where
  | action (startOk : Bool)
  | result (ev : RecognitionEvent)
  | error
  | ended
  | closeClick
deriving DecidableEq

/-- Whole-system state: the document content, the editor session state, and
whether the external speech source is actively emitting events. -/
structure Sys where
  doc : List Char
  st : EditorState
  sourceActive : Bool
deriving DecidableEq

/-- One step of the session system.  The `sourceActive` flag models the
external speech source's contract (spec section 6): it emits `onresult`
callbacks only between a successful `start()` and the next `stop()`, error,
or end, so a result event arriving while the source is inactive is not
delivered. -/
def sysStep (s : Sys) : SessionEv → Sys
  | .action startOk =>
    { s with
      st := handleAction startOk s.st,
      sourceActive := if !s.st.listening then (if startOk then true else s.sourceActive) else false }
  | .result ev =>
    if s.sourceActive then
      let r := handleRecognitionResult s.doc s.st ev
      { s with doc := r.1, st := r.2 }
    else s
  | .error => { s with st := onRecognitionError s.st, sourceActive := false }
  | .ended => { s with st := onRecognitionEnd s.st, sourceActive := false }
  | .closeClick =>
    { s with
      st := closePreviewClick s.st,
      sourceActive := if s.st.listening && s.st.recognitionInit then false else s.sourceActive }

/-- Run the session system over a list of events. -/
def sysRun (s : Sys) : List SessionEv → Sys
  | [] => s
  | e :: es => sysRun (sysStep s e) es

/-! ## Derived predicates used in the statements -/

/-- Adjacent-character discipline of the normalizer's output: a space is
never preceded by a space or a newline. -/
def spacingRel (a b : Char) : Prop := ¬(b = ' ' ∧ (a = ' ' ∨ a = '\n'))

instance spacingRelDecidable : DecidableRel spacingRel := fun a b =>
  inferInstanceAs (Decidable (¬(b = ' ' ∧ (a = ' ' ∨ a = '\n'))))

/-- Executable form of the adjacent-character discipline. -/
def spacingRelB (a b : Char) : Bool := !(b == ' ' && (a == ' ' || a == '\n'))

/-- Executable check that every adjacent pair satisfies `spacingRel`. -/
def chainOkB : List Char → Bool
  | [] => true
  | [_] => true
  | a :: b :: rest => spacingRelB a b && chainOkB (b :: rest)

/-- The punctuation symbol characters the resolver can emit, excluding the
newline symbols (the apostrophe is written as its code point). -/
def punctSymbolChars : List Char :=
  ['.', ',', '?', '!', ';', ':', '-', Char.ofNat 39, '"', '(', ')']

/-- Scan for a space character immediately followed by a punctuation symbol
character. -/
def hasSpaceBeforePunctSymbol : List Char → Bool
  | a :: b :: rest =>
    (a == ' ' && punctSymbolChars.contains b) ||
      hasSpaceBeforePunctSymbol (b :: rest)
  | _ => false

/-- Concatenation of the final slots' texts, each with one trailing space. -/
def finalsConcat (slots : List Slot) : List Char :=
  ((slots.filter (fun s => s.isFinal)).map (fun s => s.text ++ [' '])).flatten

/-- Concatenation of the interim slots' texts. -/
def interimConcat (slots : List Slot) : List Char :=
  ((slots.filter (fun s => !s.isFinal)).map (fun s => s.text)).flatten

/-! ## Basic lemmas about the phrase resolver and the loop -/

theorem matchWindow_le {words : List (List Char)} {i k : Nat} {s : List Char}
    (h : matchWindow words i k = some s) : i + k ≤ words.length := by
  unfold matchWindow at h
  split at h
  · assumption
  · exact absurd h (by simp)

theorem matchWindow_lookup {words : List (List Char)} {i k : Nat}
    {s : List Char} (h : matchWindow words i k = some s) :
    getPunctuationSymbol (joinWords ((words.drop i).take k)) = some s := by
  unfold matchWindow at h
  split at h
  · assumption
  · exact absurd h (by simp)

theorem matchPunctuation_consumed {words : List (List Char)} {i : Nat}
    {sym : List Char} {n : Nat}
    (h : matchPunctuation words i = some (sym, n)) :
    (n = 1 ∨ n = 2 ∨ n = 3) ∧ i + n ≤ words.length := by
  unfold matchPunctuation at h
  split at h
  · rename_i heq
    cases h
    exact ⟨Or.inr (Or.inr rfl), matchWindow_le heq⟩
  · split at h
    · rename_i heq
      cases h
      exact ⟨Or.inr (Or.inl rfl), matchWindow_le heq⟩
    · split at h
      · rename_i heq
        cases h
        exact ⟨Or.inl rfl, matchWindow_le heq⟩
      · exact absurd h (by simp)

theorem processWordsAux_congr :
    ∀ (f g : Nat) (words : List (List Char)) (i : Nat) (result : List Char)
      (cap : Bool), words.length - i ≤ f → words.length - i ≤ g →
      processWordsAux f words i result cap =
        processWordsAux g words i result cap := by
  intro f
  induction f with
  | zero =>
    intro g words i result cap hf hg
    have h : ¬ i < words.length := by omega
    cases g with
    | zero => rfl
    | succ g => simp [processWordsAux, h]
  | succ f ih =>
    intro g words i result cap hf hg
    cases g with
    | zero =>
      have h : ¬ i < words.length := by omega
      simp [processWordsAux, h]
    | succ g =>
      by_cases h : i < words.length
      · simp only [processWordsAux, dif_pos h]
        cases hm : matchPunctuation words i with
        | some p =>
          obtain ⟨sym, n⟩ := p
          obtain ⟨hn, hle⟩ := matchPunctuation_consumed hm
          exact ih g words (i + n) _ _ (by omega) (by omega)
        | none =>
          exact ih g words (i + 1) _ _ (by omega) (by omega)
      · simp [processWordsAux, h]

theorem processLoop_done {words : List (List Char)} {i : Nat}
    {result : List Char} {cap : Bool} (h : words.length ≤ i) :
    processLoop words i result cap = result := by
  unfold processLoop
  have h0 : words.length - i = 0 := by omega
  rw [h0]
  rfl

theorem processLoop_punct {words : List (List Char)} {i : Nat}
    {result : List Char} {cap : Bool} {sym : List Char} {n : Nat}
    (h : i < words.length) (hm : matchPunctuation words i = some (sym, n)) :
    processLoop words i result cap =
      processLoop words (i + n) (result ++ sym ++ symbolSpacing sym)
        (if isSentenceEnding sym then true else cap) := by
  obtain ⟨hn, hle⟩ := matchPunctuation_consumed hm
  unfold processLoop
  have h1 : words.length - i = (words.length - i - 1) + 1 := by omega
  rw [h1]
  simp only [processWordsAux, dif_pos h, hm]
  exact processWordsAux_congr _ _ words (i + n) _ _ (by omega) (by omega)

theorem processLoop_word {words : List (List Char)} {i : Nat}
    {result : List Char} {cap : Bool} (h : i < words.length)
    (hm : matchPunctuation words i = none) :
    processLoop words i result cap =
      processLoop words (i + 1)
        (result ++ getSpacingBefore result ++
          (if cap then capitalizeWord (words.get ⟨i, h⟩)
           else words.get ⟨i, h⟩)) false := by
  unfold processLoop
  have h1 : words.length - i = (words.length - i - 1) + 1 := by omega
  rw [h1]
  simp only [processWordsAux, dif_pos h, hm]
  exact processWordsAux_congr _ _ words (i + 1) _ _ (by omega) (by omega)

/-! ## Character lemmas -/

theorem char_toNat_ofNat {n : Nat} (h : n.isValidChar) : (Char.ofNat n).toNat = n := by
  rw [Char.ofNat, dif_pos h]; rfl

theorem char_le_toNat {a b : Char} : a ≤ b ↔ a.toNat ≤ b.toNat := Iff.rfl

theorem char_eq_iff_toNat {a b : Char} : a = b ↔ a.toNat = b.toNat :=
  ⟨fun h => h ▸ rfl, fun h => Char.eq_of_val_eq (UInt32.ext h)⟩

theorem toUpper_toNat_lower {c : Char} (h1 : 97 ≤ c.toNat) (h2 : c.toNat ≤ 122) :
    (Char.toUpper c).toNat = c.toNat - 32 := by
  unfold Char.toUpper
  rw [if_pos ⟨h1, h2⟩]
  exact char_toNat_ofNat (Or.inl (by omega))

theorem toUpper_eq_self {c : Char} (h : ¬(97 ≤ c.toNat ∧ c.toNat ≤ 122)) :
    Char.toUpper c = c := by
  unfold Char.toUpper
  rw [if_neg h]

theorem toUpper_ne_space {c : Char} (h : c ≠ ' ') : Char.toUpper c ≠ ' ' := by
  by_cases hl : 97 ≤ c.toNat ∧ c.toNat ≤ 122
  · intro he
    have ht := toUpper_toNat_lower hl.1 hl.2
    rw [he] at ht
    have h32 : (' ' : Char).toNat = 32 := rfl
    omega
  · rw [toUpper_eq_self hl]; exact h

theorem startsWithPunctChar_cons_false {c : Char} {cs : List Char}
    (h46 : c.toNat ≠ 46) (h44 : c.toNat ≠ 44) (h33 : c.toNat ≠ 33)
    (h63 : c.toNat ≠ 63) (h59 : c.toNat ≠ 59) (h58 : c.toNat ≠ 58)
    (h41 : c.toNat ≠ 41) (h93 : c.toNat ≠ 93) :
    startsWithPunctChar (c :: cs) = false := by
  unfold startsWithPunctChar
  simp only [Bool.or_eq_false_iff, beq_eq_false_iff_ne]
  exact ⟨⟨⟨⟨⟨⟨⟨fun he => h46 (by rw [he]; rfl), fun he => h44 (by rw [he]; rfl)⟩,
    fun he => h33 (by rw [he]; rfl)⟩, fun he => h63 (by rw [he]; rfl)⟩,
    fun he => h59 (by rw [he]; rfl)⟩, fun he => h58 (by rw [he]; rfl)⟩,
    fun he => h41 (by rw [he]; rfl)⟩, fun he => h93 (by rw [he]; rfl)⟩

/-! ## The commit-time adjustment agrees with the specification conditions -/

theorem dropWhile_idem {α : Type} (p : α → Bool) (l : List α) :
    (l.dropWhile p).dropWhile p = l.dropWhile p := by
  induction l with
  | nil => rfl
  | cons a l ih =>
    by_cases h : p a
    · simp [List.dropWhile_cons, h, ih]
    · simp [List.dropWhile_cons, h]

theorem reverse_trimChars_dropWhile (d : List Char) :
    (trimChars d).reverse.dropWhile jsWhitespace = (trimChars d).reverse := by
  unfold trimChars dropTrailingWs
  rw [List.reverse_reverse]
  exact dropWhile_idem _ _

theorem endsWithSentencePunct_trim (d : List Char) :
    endsWithSentencePunct (trimChars d) =
      (match (trimChars d).getLast? with
       | some c => c == '.' || c == '!' || c == '?'
       | none => false) := by
  unfold endsWithSentencePunct
  rw [reverse_trimChars_dropWhile, List.getLast?_eq_head?_reverse]
  cases (trimChars d).reverse with
  | nil => rfl
  | cons c rest => rfl

theorem shouldCapitalizeText_eq_spec (d t : List Char) :
    shouldCapitalizeText d t = specCapitalizeCond d t := by
  unfold shouldCapitalizeText specCapitalizeCond
  rw [endsWithSentencePunct_trim]
  cases d with
  | nil => simp
  | cons a d => cases h : startsWithLowerAZ t <;> simp [h]

theorem needsSpaceBefore_eq_spec (d t : List Char) :
    needsSpaceBefore d t = specPrependSpaceCond d t := by
  unfold needsSpaceBefore specPrependSpaceCond
  cases d with
  | nil => simp
  | cons a d =>
    cases h1 : ((a :: d).getLast? == some ' ' || (a :: d).getLast? == some '\n') <;>
      cases h2 : startsWithPunctChar t <;> simp [h1, h2]

theorem startsWithPunctChar_capitalizeWord {t : List Char}
    (h : startsWithLowerAZ t = true) :
    startsWithPunctChar (capitalizeWord t) = startsWithPunctChar t := by
  cases t with
  | nil => simp [startsWithLowerAZ] at h
  | cons c cs =>
    simp only [startsWithLowerAZ, Bool.and_eq_true, decide_eq_true_eq] at h
    obtain ⟨h1, h2⟩ := h
    rw [char_le_toNat] at h1 h2
    have ha : ('a' : Char).toNat = 97 := rfl
    have hz : ('z' : Char).toNat = 122 := rfl
    have hu : (Char.toUpper c).toNat = c.toNat - 32 :=
      toUpper_toNat_lower (by omega) (by omega)
    show startsWithPunctChar (Char.toUpper c :: cs) = _
    rw [@startsWithPunctChar_cons_false (Char.toUpper c) cs (by omega) (by omega)
      (by omega) (by omega) (by omega) (by omega) (by omega) (by omega)]
    rw [@startsWithPunctChar_cons_false c cs (by omega) (by omega) (by omega)
      (by omega) (by omega) (by omega) (by omega) (by omega)]

theorem prepareText_eq_spec (d t : List Char) :
    prepareTextForInsertion d t =
      (if specPrependSpaceCond d t then [' '] else []) ++
        (if specCapitalizeCond d t then capitalizeWord t else t) := by
  simp only [prepareTextForInsertion]
  rw [shouldCapitalizeText_eq_spec, needsSpaceBefore_eq_spec]
  by_cases hc : specCapitalizeCond d t = true
  · have hlow : startsWithLowerAZ t = true := by
      unfold specCapitalizeCond at hc
      simp only [Bool.and_eq_true] at hc
      exact hc.1.2
    have hsw : specPrependSpaceCond d (capitalizeWord t) = specPrependSpaceCond d t := by
      unfold specPrependSpaceCond
      rw [startsWithPunctChar_capitalizeWord hlow]
    rw [hc, if_pos rfl, hsw]
    cases specPrependSpaceCond d t <;> simp
  · rw [if_neg hc]
    cases specPrependSpaceCond d t <;> simp

/-! ## Claim theorems -/

/-- C1: for every document content `d` and normalized pending text `t`, the
committed insertion equals `t` with (a) its first character uppercased
exactly when `d` is non-empty, `t` starts with a lowercase letter, and the
trimmed `d` ends with `.`, `!` or `?`, and (b) a single space prepended
exactly when `d` is non-empty, does not end in a space or newline, and `t`
does not start with one of `. , ! ? ; : ) ]`; in particular for
`d = "Hello world."` and `t = "there is more"` the insertion is
`" There is more"`. -/
theorem claim1_commit_adjustment :
    (∀ d t : List Char, prepareTextForInsertion d t =
      (if specPrependSpaceCond d t then [' '] else []) ++
        (if specCapitalizeCond d t then capitalizeWord t else t))
    ∧ prepareTextForInsertion "Hello world.".data "there is more".data
        = " There is more".data :=
  ⟨prepareText_eq_spec, by decide⟩

/-- C10: when the document content is empty, the committed text equals the
normalized pending text exactly: no capitalization change and no leading
space, regardless of what the text starts with. -/
theorem claim10_empty_document :
    ∀ t : List Char, shouldCapitalizeText [] t = false ∧
      needsSpaceBefore [] t = false ∧ prepareTextForInsertion [] t = t := by
  intro t
  refine ⟨rfl, rfl, ?_⟩
  rw [prepareText_eq_spec]
  simp [specPrependSpaceCond, specCapitalizeCond]

/-- C3: the phrase resolver tries window lengths 3, then 2, then 1 from the
start index, joining each window with single spaces and looking the
lowercased trimmed phrase up in the fixed table; it returns the first
(longest) match with the number of words consumed, and returns nothing when
no window matches; in particular `normalize("semi colon test") = "; test"`. -/
theorem claim3_longest_match :
    (∀ (words : List (List Char)) (i : Nat) (sym : List Char) (n : Nat),
        matchPunctuation words i = some (sym, n) →
          (n = 1 ∨ n = 2 ∨ n = 3) ∧ i + n ≤ words.length ∧
          matchWindow words i n = some sym ∧
          (∀ m, n < m → m ≤ 3 → matchWindow words i m = none))
    ∧ (∀ (words : List (List Char)) (i : Nat),
        (∀ m, 1 ≤ m → m ≤ 3 → matchWindow words i m = none) →
          matchPunctuation words i = none)
    ∧ (∀ (words : List (List Char)) (i k : Nat),
        matchWindow words i k =
          if i + k ≤ words.length then
            getPunctuationSymbol (joinWords ((words.drop i).take k))
          else none)
    ∧ processTextWithPunctuation "semi colon test".data = "; test".data := by
  refine ⟨?_, ?_, fun words i k => rfl, by decide⟩
  · intro words i sym n h
    unfold matchPunctuation at h
    split at h
    · rename_i heq
      cases h
      exact ⟨Or.inr (Or.inr rfl), matchWindow_le heq, heq,
        fun m hm1 hm2 => absurd hm2 (by omega)⟩
    · rename_i h3
      split at h
      · rename_i heq
        cases h
        refine ⟨Or.inr (Or.inl rfl), matchWindow_le heq, heq, ?_⟩
        intro m hm1 hm2
        have hm : m = 3 := by omega
        rw [hm]; exact h3
      · rename_i h2
        split at h
        · rename_i heq
          cases h
          refine ⟨Or.inl rfl, matchWindow_le heq, heq, ?_⟩
          intro m hm1 hm2
          have hm : m = 2 ∨ m = 3 := by omega
          rcases hm with hm | hm
          · rw [hm]; exact h2
          · rw [hm]; exact h3
        · exact absurd h (by simp)
  · intro words i h
    unfold matchPunctuation
    rw [h 3 (by omega) (by omega), h 2 (by omega) (by omega),
      h 1 (by omega) (by omega)]

/-- Witness for C3: at `["semi", "colon", "test"]` and start index 0 the
resolver matches the two-word window as `;` and no longer window matches. -/
theorem claim3_longest_match_witness :
    matchWindow ["semi".data, "colon".data, "test".data] 0 2 = some ";".data ∧
    matchWindow ["semi".data, "colon".data, "test".data] 0 3 = none :=
  ⟨(claim3_longest_match.1 ["semi".data, "colon".data, "test".data] 0
      ";".data 2 (by decide)).2.2.1,
   (claim3_longest_match.1 ["semi".data, "colon".data, "test".data] 0
      ";".data 2 (by decide)).2.2.2 3 (by decide) (by decide)⟩

/-- C9: the normalizer's word-scanning loop is total: a matched phrase
consumes 1, 2 or 3 words and never more than the words remaining, so the
cursor strictly advances and the loop completes within the remaining word
count — any iteration budget at least that large yields the same result as
the exact budget used by `processLoop`. -/
theorem claim9_termination :
    (∀ (words : List (List Char)) (i : Nat) (sym : List Char) (n : Nat),
        matchPunctuation words i = some (sym, n) →
          1 ≤ n ∧ n ≤ 3 ∧ i + n ≤ words.length)
    ∧ (∀ (fuel : Nat) (words : List (List Char)) (i : Nat) (result : List Char)
        (cap : Bool), words.length - i ≤ fuel →
          processWordsAux fuel words i result cap =
            processWordsAux (words.length - i) words i result cap)
    ∧ (∀ (words : List (List Char)) (i : Nat) (result : List Char) (cap : Bool),
        processLoop words i result cap =
          processWordsAux (words.length - i) words i result cap) := by
  refine ⟨?_, ?_, fun words i result cap => rfl⟩
  · intro words i sym n h
    obtain ⟨h1, h2⟩ := matchPunctuation_consumed h
    rcases h1 with h1 | h1 | h1 <;> subst h1 <;> exact ⟨by omega, by omega, h2⟩
  · intro fuel words i result cap h
    exact processWordsAux_congr fuel _ words i result cap h (Nat.le_refl _)

/-- Witness for C9: the resolver consumes 2 of the 3 words of
`["new", "paragraph", "hello"]` at index 0, and a budget of 5 iterations
computes the same result as the exact budget 3. -/
theorem claim9_termination_witness :
    (1 ≤ 2 ∧ 2 ≤ 3 ∧
      0 + 2 ≤ (["new".data, "paragraph".data, "hello".data] : List (List Char)).length) ∧
    processWordsAux 5 ["new".data, "paragraph".data, "hello".data] 0 [] false =
      processWordsAux
        ((["new".data, "paragraph".data, "hello".data] : List (List Char)).length - 0)
        ["new".data, "paragraph".data, "hello".data] 0 [] false :=
  ⟨claim9_termination.1 ["new".data, "paragraph".data, "hello".data] 0
      "\n\n".data 2 (by decide),
   claim9_termination.2.1 5 ["new".data, "paragraph".data, "hello".data] 0 []
      false (by decide)⟩

/-- C2: whenever a resolved symbol is sentence-ending (`.`, `?`, `!` or a
blank line), the capitalize flag is set, and the next literal word is
appended with exactly its first character uppercased; in particular
`normalize("new paragraph hello") = "\n\nHello"`. -/
theorem claim2_sentence_capitalization :
    (∀ (words : List (List Char)) (i : Nat) (result : List Char) (cap : Bool)
        (sym : List Char) (n : Nat), i < words.length →
        matchPunctuation words i = some (sym, n) → isSentenceEnding sym = true →
        processLoop words i result cap =
          processLoop words (i + n) (result ++ sym ++ symbolSpacing sym) true)
    ∧ (∀ (words : List (List Char)) (i : Nat) (result : List Char)
        (h : i < words.length), matchPunctuation words i = none →
        processLoop words i result true =
          processLoop words (i + 1)
            (result ++ getSpacingBefore result ++ capitalizeWord (words.get ⟨i, h⟩))
            false)
    ∧ (∀ (c : Char) (cs : List Char), capitalizeWord (c :: cs) = Char.toUpper c :: cs)
    ∧ processTextWithPunctuation "new paragraph hello".data = "\n\nHello".data := by
  refine ⟨?_, ?_, fun c cs => rfl, by decide⟩
  · intro words i result cap sym n h hm hs
    rw [processLoop_punct h hm, hs]
    simp
  · intro words i result h hm
    have hw := @processLoop_word words i result true h hm
    simpa using hw

/-- Witness for C2: the blank-line symbol resolved from `"new paragraph"`
sets the flag, and the literal word `"hello"` is then appended
capitalized. -/
theorem claim2_sentence_capitalization_witness :
    processLoop ["new".data, "paragraph".data, "hello".data] 0 [] false =
      processLoop ["new".data, "paragraph".data, "hello".data] (0 + 2)
        ([] ++ "\n\n".data ++ symbolSpacing "\n\n".data) true ∧
    processLoop ["hello".data] 0 "\n\n".data true =
      processLoop ["hello".data] (0 + 1)
        ("\n\n".data ++ getSpacingBefore "\n\n".data ++
          capitalizeWord ((["hello".data] : List (List Char)).get ⟨0, by decide⟩))
        false :=
  ⟨claim2_sentence_capitalization.1 ["new".data, "paragraph".data, "hello".data]
      0 [] false "\n\n".data 2 (by decide) (by decide) (by decide),
   claim2_sentence_capitalization.2.1 ["hello".data] 0 "\n\n".data (by decide)
      (by decide)⟩

/-- C4: every resolved symbol is appended with no space before it, followed
by exactly one space unless it is a newline or blank line; empty or
whitespace-only input normalizes to the empty string; in particular
`normalize("hello comma world full stop") = "hello, world. "`. -/
theorem claim4_symbol_spacing :
    (∀ (words : List (List Char)) (i : Nat) (result : List Char) (cap : Bool)
        (sym : List Char) (n : Nat), i < words.length →
        matchPunctuation words i = some (sym, n) →
        processLoop words i result cap =
          processLoop words (i + n) (result ++ sym ++ symbolSpacing sym)
            (if isSentenceEnding sym then true else cap))
    ∧ (∀ sym : List Char, sym ≠ "\n".data → sym ≠ "\n\n".data →
        symbolSpacing sym = [' '])
    ∧ symbolSpacing "\n".data = [] ∧ symbolSpacing "\n\n".data = []
    ∧ (∀ text : List Char, trimChars text = [] →
        processTextWithPunctuation text = [])
    ∧ processTextWithPunctuation "".data = []
    ∧ processTextWithPunctuation "   ".data = []
    ∧ processTextWithPunctuation "hello comma world full stop".data
        = "hello, world. ".data := by
  refine ⟨?_, ?_, rfl, rfl, ?_, by decide, by decide, by decide⟩
  · intro words i result cap sym n h hm
    exact processLoop_punct h hm
  · intro sym h1 h2
    unfold symbolSpacing
    rw [if_neg]
    simp [h1, h2]
  · intro text h
    unfold processTextWithPunctuation
    rw [if_pos h]

/-- Witness for C4: the comma resolved at `["comma", "x"]` is appended
directly with a trailing space; the period symbol gets a single trailing
space; the whitespace-only input `"  "` normalizes to the empty string. -/
theorem claim4_symbol_spacing_witness :
    (processLoop ["comma".data, "x".data] 0 "hello".data false =
      processLoop ["comma".data, "x".data] (0 + 1)
        ("hello".data ++ ",".data ++ symbolSpacing ",".data)
        (if isSentenceEnding ",".data then true else false)) ∧
    symbolSpacing ".".data = [' '] ∧
    processTextWithPunctuation "  ".data = [] :=
  ⟨claim4_symbol_spacing.1 ["comma".data, "x".data] 0 "hello".data false
      ",".data 1 (by decide) (by decide),
   claim4_symbol_spacing.2.1 ".".data (by decide) (by decide),
   claim4_symbol_spacing.2.2.2.2.1 "  ".data (by decide)⟩

/-! ## Spacing invariant of the normalizer -/

theorem splitWsAux_clean :
    ∀ (l acc : List Char), (∀ c ∈ acc, jsWhitespace c = false) →
      ∀ w ∈ splitWsAux l acc, w ≠ [] ∧ ∀ c ∈ w, jsWhitespace c = false := by
  intro l
  induction l with
  | nil =>
    intro acc hacc w hw
    unfold splitWsAux at hw
    split at hw
    · simp at hw
    · rename_i hne
      simp only [List.mem_singleton] at hw
      subst hw
      refine ⟨?_, fun c hc => hacc c (List.mem_reverse.mp hc)⟩
      simp only [ne_eq, List.reverse_eq_nil_iff]
      intro h
      rw [h] at hne
      exact hne rfl
  | cons c rest ih =>
    intro acc hacc w hw
    unfold splitWsAux at hw
    split at hw
    · split at hw
      · exact ih [] (by simp) w hw
      · rename_i hne
        rcases List.mem_cons.mp hw with hw | hw
        · subst hw
          refine ⟨?_, fun d hd => hacc d (List.mem_reverse.mp hd)⟩
          simp only [ne_eq, List.reverse_eq_nil_iff]
          intro h
          rw [h] at hne
          exact hne rfl
        · exact ih [] (by simp) w hw
    · rename_i hws
      refine ih (c :: acc) ?_ w hw
      intro d hd
      rcases List.mem_cons.mp hd with hd | hd
      · subst hd
        exact Bool.not_eq_true _ ▸ (by simpa using hws)
      · exact hacc d hd

theorem lookup_mem_values {α β : Type} [BEq α] :
    ∀ {l : List (α × β)} {k : α} {v : β},
      l.lookup k = some v → v ∈ l.map Prod.snd := by
  intro l
  induction l with
  | nil => intro k v h; simp [List.lookup] at h
  | cons p rest ih =>
    intro k v h
    obtain ⟨a, b⟩ := p
    rw [List.lookup_cons] at h
    split at h
    · cases h
      simp
    · simpa using Or.inr (ih h)

theorem getPunctuationSymbol_mem {p s : List Char}
    (h : getPunctuationSymbol p = some s) : s ∈ punctuationMap.map Prod.snd :=
  lookup_mem_values h

theorem matchPunctuation_symbol_mem {words : List (List Char)} {i : Nat}
    {sym : List Char} {n : Nat}
    (h : matchPunctuation words i = some (sym, n)) :
    sym ∈ punctuationMap.map Prod.snd := by
  unfold matchPunctuation at h
  split at h
  · rename_i heq
    cases h
    exact getPunctuationSymbol_mem (matchWindow_lookup heq)
  · split at h
    · rename_i heq
      cases h
      exact getPunctuationSymbol_mem (matchWindow_lookup heq)
    · split at h
      · rename_i heq
        cases h
        exact getPunctuationSymbol_mem (matchWindow_lookup heq)
      · exact absurd h (by simp)

theorem chainOkB_chain' :
    ∀ {l : List Char}, chainOkB l = true → List.Chain' spacingRel l := by
  intro l
  induction l with
  | nil => intro _; simp
  | cons a l ih =>
    cases l with
    | nil => intro _; simp
    | cons b t =>
      intro h
      rw [chainOkB] at h
      simp only [Bool.and_eq_true] at h
      refine List.Chain'.cons ?_ (ih h.2)
      have hb := h.1
      unfold spacingRelB at hb
      intro hab
      rw [hab.1] at hb
      simp only [Bool.not_eq_true', beq_self_eq_true, Bool.true_and,
        Bool.or_eq_false_iff, beq_eq_false_iff_ne] at hb
      rcases hab.2 with h' | h'
      · exact hb.1 h'
      · exact hb.2 h'

theorem symbol_facts :
    ∀ s ∈ punctuationMap.map Prod.snd,
      s ≠ [] ∧ chainOkB s = true ∧ s.head? ≠ some ' ' ∧
      (symbolSpacing s = [' '] →
        s.getLast? ≠ some ' ' ∧ s.getLast? ≠ some '\n') := by
  decide

theorem getSpacingBefore_cases (res : List Char) :
    getSpacingBefore res = [] ∨
      (getSpacingBefore res = [' '] ∧
        ∃ c, res.getLast? = some c ∧ ¬c = '\n' ∧ ¬c = ' ') := by
  cases hl : res.getLast? with
  | none =>
    left
    unfold getSpacingBefore
    rw [hl]
  | some c =>
    by_cases hc : c = '\n' ∨ c = ' '
    · left
      unfold getSpacingBefore
      rw [hl]
      exact if_pos hc
    · refine Or.inr ⟨?_, c, rfl, fun h => hc (Or.inl h), fun h => hc (Or.inr h)⟩
      unfold getSpacingBefore
      rw [hl]
      exact if_neg hc

theorem chain'_of_no_space {l : List Char} (h : ∀ c ∈ l, ¬c = ' ') :
    List.Chain' spacingRel l := by
  induction l with
  | nil => simp
  | cons a l ih =>
    cases l with
    | nil => simp
    | cons b t =>
      refine List.Chain'.cons ?_ (ih fun c hc => h c (List.mem_cons_of_mem _ hc))
      intro hab
      exact h b (List.mem_cons_of_mem _ (List.mem_cons_self _ _)) hab.1

theorem no_ws_no_space {w : List Char} (h : ∀ c ∈ w, jsWhitespace c = false) :
    ∀ c ∈ w, ¬c = ' ' := by
  intro c hc he
  have := h c hc
  rw [he] at this
  exact absurd this (by decide)

theorem capitalizeWord_no_space {w : List Char} (hne : w ≠ [])
    (h : ∀ c ∈ w, ¬c = ' ') :
    capitalizeWord w ≠ [] ∧ ∀ c ∈ capitalizeWord w, ¬c = ' ' := by
  cases w with
  | nil => exact absurd rfl hne
  | cons c cs =>
    refine ⟨by simp [capitalizeWord], ?_⟩
    intro d hd
    rcases List.mem_cons.mp hd with hd | hd
    · subst hd
      exact toUpper_ne_space (h c (List.mem_cons_self _ _))
    · exact h d (List.mem_cons_of_mem _ hd)

theorem processWordsAux_chain :
    ∀ (fuel : Nat) (words : List (List Char)) (i : Nat) (result : List Char)
      (cap : Bool),
      (∀ w ∈ words, w ≠ [] ∧ ∀ c ∈ w, jsWhitespace c = false) →
      List.Chain' spacingRel result →
      List.Chain' spacingRel (processWordsAux fuel words i result cap) := by
  intro fuel
  induction fuel with
  | zero => intro words i result cap _ hres; exact hres
  | succ fuel ih =>
    intro words i result cap hwords hres
    simp only [processWordsAux]
    split
    · rename_i h
      cases hm : matchPunctuation words i with
      | some p =>
        obtain ⟨sym, n⟩ := p
        obtain ⟨hne, hchain, hhead, hlast⟩ :=
          symbol_facts sym (matchPunctuation_symbol_mem hm)
        apply ih words (i + n) _ _ hwords
        rw [List.append_assoc, List.chain'_append]
        refine ⟨hres, ?_, ?_⟩
        · rw [List.chain'_append]
          refine ⟨chainOkB_chain' hchain, ?_, ?_⟩
          · unfold symbolSpacing
            split <;> simp
          · intro x hx y hy
            cases hsp : symbolSpacing sym with
            | nil => rw [hsp] at hy; simp at hy
            | cons s0 stail =>
              have hsp' : symbolSpacing sym = [' '] := by
                unfold symbolSpacing at hsp ⊢
                split at hsp
                · exact absurd hsp (by simp)
                · rw [if_neg (by assumption)]
              rw [hsp'] at hy
              simp only [List.head?_cons, Option.mem_def, Option.some.injEq] at hy
              subst hy
              obtain ⟨hl1, hl2⟩ := hlast hsp'
              intro hab
              rcases hab.2 with hx' | hx'
              · exact hl1 (by rw [← hx']; exact hx)
              · exact hl2 (by rw [← hx']; exact hx)
        · intro x hx y hy
          cases hsy : sym with
          | nil => exact absurd hsy hne
          | cons s0 stail =>
            rw [hsy] at hy
            simp only [List.cons_append, List.head?_cons, Option.mem_def,
              Option.some.injEq] at hy
            subst hy
            intro hab
            apply hhead
            rw [hsy, hab.1]
            rfl
      | none =>
        have hw := hwords (words.get ⟨i, h⟩) (words.get_mem _ _)
        have hwne : words.get ⟨i, h⟩ ≠ [] := hw.1
        have hwsp : ∀ c ∈ words.get ⟨i, h⟩, ¬c = ' ' := no_ws_no_space hw.2
        have hw' :
            (if cap then capitalizeWord (words.get ⟨i, h⟩)
             else words.get ⟨i, h⟩) ≠ [] ∧
            ∀ c ∈ (if cap then capitalizeWord (words.get ⟨i, h⟩)
                   else words.get ⟨i, h⟩), ¬c = ' ' := by
          cases cap with
          | false => exact ⟨hwne, hwsp⟩
          | true => simpa using capitalizeWord_no_space hwne hwsp
        apply ih words (i + 1) _ _ hwords
        rw [List.append_assoc, List.chain'_append]
        rcases getSpacingBefore_cases result with hsp | ⟨hsp, c, hlast, hc1, hc2⟩
        · rw [hsp]
          refine ⟨hres, by simpa using chain'_of_no_space hw'.2, ?_⟩
          intro x hx y hy
          simp only [List.nil_append] at hy
          intro hab
          cases hcase : (if cap then capitalizeWord (words.get ⟨i, h⟩)
                         else words.get ⟨i, h⟩) with
          | nil => exact hw'.1 hcase
          | cons w0 wtail =>
            rw [hcase] at hy
            simp only [List.head?_cons, Option.mem_def, Option.some.injEq] at hy
            exact hw'.2 w0 (by rw [hcase]; exact List.mem_cons_self _ _)
              (hy.trans hab.1)
        · rw [hsp]
          refine ⟨hres, ?_, ?_⟩
          · refine List.Chain'.cons' (chain'_of_no_space hw'.2) ?_
            intro y hy
            intro hab
            cases hcase : (if cap then capitalizeWord (words.get ⟨i, h⟩)
                           else words.get ⟨i, h⟩) with
            | nil => exact hw'.1 hcase
            | cons w0 wtail =>
              rw [hcase] at hy
              simp only [List.append_eq, List.nil_append, List.head?_cons,
                Option.mem_def, Option.some.injEq] at hy
              exact hw'.2 w0 (by rw [hcase]; exact List.mem_cons_self _ _)
                (hy.trans hab.1)
          · intro x hx y hy
            simp only [List.cons_append, List.head?_cons, Option.mem_def,
              Option.some.injEq] at hy
            subst hy
            rw [hlast] at hx
            simp only [Option.mem_def, Option.some.injEq] at hx
            subst hx
            intro hab
            rcases hab.2 with hx' | hx'
            · exact hc2 hx'
            · exact hc1 hx'
    · exact hres

theorem processTextWithPunctuation_chain (text : List Char) :
    List.Chain' spacingRel (processTextWithPunctuation text) := by
  unfold processTextWithPunctuation
  split
  · simp
  · exact processWordsAux_chain _ _ 0 [] false
      (splitWsAux_clean _ [] (by simp)) (by simp)

/-- Counterexample to C5 as stated: the input `"hello .x"` normalizes to
itself, and that output does contain a space character immediately preceding
the punctuation symbol character `.` (the `.` arrives inside the literal
word `".x"`, which matches no phrase and is appended verbatim after an
auto-inserted space). -/
theorem claim5_counterexample :
    processTextWithPunctuation "hello .x".data = "hello .x".data ∧
    hasSpaceBeforePunctSymbol (processTextWithPunctuation "hello .x".data)
      = true := by
  decide

/-- C5 (amended): for every input string the output of the normalizer
contains no two consecutive space characters and no newline immediately
followed by a space (all output spaces are auto-inserted), and every
punctuation symbol resolved from a spoken phrase is appended to the output
buffer with no space inserted before it; however a punctuation character
occurring inside a literal input word can still be preceded by a space. -/
theorem claim5_spacing_invariant :
    (∀ text : List Char,
      List.Chain' (fun a b => ¬(a = ' ' ∧ b = ' '))
        (processTextWithPunctuation text))
    ∧ (∀ text : List Char,
      List.Chain' (fun a b => ¬(a = '\n' ∧ b = ' '))
        (processTextWithPunctuation text))
    ∧ (∀ (words : List (List Char)) (i : Nat) (result : List Char) (cap : Bool)
        (sym : List Char) (n : Nat), i < words.length →
        matchPunctuation words i = some (sym, n) →
        processLoop words i result cap =
          processLoop words (i + n) (result ++ sym ++ symbolSpacing sym)
            (if isSentenceEnding sym then true else cap)) := by
  refine ⟨?_, ?_, fun words i result cap sym n h hm => processLoop_punct h hm⟩
  · intro text
    exact List.Chain'.imp
      (fun a b hr hab => hr ⟨hab.2, Or.inl hab.1⟩)
      (processTextWithPunctuation_chain text)
  · intro text
    exact List.Chain'.imp
      (fun a b hr hab => hr ⟨hab.2, Or.inr hab.1⟩)
      (processTextWithPunctuation_chain text)

/-- Witness for the amended C5: the symbol resolved from `"comma"` is
appended directly after the buffer `"hello"`, with no space in between. -/
theorem claim5_spacing_invariant_witness :
    processLoop ["comma".data] 0 "hello".data false =
      processLoop ["comma".data] (0 + 1)
        ("hello".data ++ ",".data ++ symbolSpacing ",".data)
        (if isSentenceEnding ",".data then true else false) :=
  claim5_spacing_invariant.2.2 ["comma".data] 0 "hello".data false ",".data 1
    (by decide) (by decide)

/-! ## Session lemmas -/

@[simp] theorem updatePreview_finalTranscript (st : EditorState) (t : List Char) :
    (updatePreview st t).finalTranscript = st.finalTranscript := by
  unfold updatePreview
  cases hp : st.preview <;> rfl

@[simp] theorem showPreview_finalTranscript (st : EditorState) :
    (showPreview st).finalTranscript = st.finalTranscript := by
  unfold showPreview
  cases hp : st.preview <;> rfl

theorem handleFinalTranscript_resets (doc : List Char) (st : EditorState) :
    (handleFinalTranscript doc st).2.finalTranscript = [] := by
  unfold handleFinalTranscript
  by_cases h : st.finalTranscript = []
  · rw [if_pos h]
    exact h
  · rw [if_neg h]
    simp

theorem collectResults_spec :
    ∀ (slots : List Slot) (finalT interimT : List Char),
      collectResults slots finalT interimT =
        (finalT ++ finalsConcat slots, interimT ++ interimConcat slots) := by
  intro slots
  induction slots with
  | nil =>
    intro f it
    simp [collectResults, finalsConcat, interimConcat]
  | cons s rest ih =>
    intro f it
    unfold collectResults
    by_cases hf : s.isFinal = true
    · rw [if_pos hf, ih]
      simp [finalsConcat, interimConcat, List.filter_cons, hf]
    · rw [if_neg hf, ih]
      simp only [Bool.not_eq_true] at hf
      simp [finalsConcat, interimConcat, List.filter_cons, hf]

/-- C6: on every transcript-revision event, each slot from `resultIndex` to
the end contributes its text plus exactly one trailing space to the pending
final accumulator when final, and otherwise its text to the transient
interim accumulator (recomputed from scratch on each event, never stored in
the state); when the interim accumulator is non-empty it is passed through
the normalizer and forwarded to the preview display. -/
theorem claim6_result_event :
    (∀ (slots : List Slot) (pending : List Char),
      collectResults slots pending [] =
        (pending ++ finalsConcat slots, interimConcat slots))
    ∧ (∀ (doc : List Char) (st : EditorState) (ev : RecognitionEvent),
        interimConcat (ev.results.drop ev.resultIndex) ≠ [] →
        st.preview.isSome = true →
        handleRecognitionResult doc st ev =
          handleFinalTranscript doc
            { st with
              finalTranscript :=
                st.finalTranscript ++ finalsConcat (ev.results.drop ev.resultIndex),
              preview := some (processTextWithPunctuation
                (interimConcat (ev.results.drop ev.resultIndex))) })
    ∧ (∀ (doc : List Char) (st : EditorState) (ev : RecognitionEvent),
        interimConcat (ev.results.drop ev.resultIndex) = [] →
        handleRecognitionResult doc st ev =
          handleFinalTranscript doc
            { st with
              finalTranscript :=
                st.finalTranscript ++ finalsConcat (ev.results.drop ev.resultIndex) }) := by
  refine ⟨?_, ?_, ?_⟩
  · intro slots pending
    rw [collectResults_spec]
    simp
  · intro doc st ev hne hsome
    simp only [handleRecognitionResult, collectResults_spec, List.nil_append]
    rw [if_neg hne]
    congr 1
    unfold updatePreview
    obtain ⟨p, hp⟩ := Option.isSome_iff_exists.mp hsome
    simp only [hp]
  · intro doc st ev hempty
    simp only [handleRecognitionResult, collectResults_spec, List.nil_append]
    rw [if_pos hempty]

/-- Witness for C6: a concrete event with one final and one interim slot,
handled with the preview shown. -/
theorem claim6_result_event_witness :
    collectResults [Slot.mk "one".data true, Slot.mk "two".data false] [] [] =
      ([] ++ finalsConcat [Slot.mk "one".data true, Slot.mk "two".data false],
        interimConcat [Slot.mk "one".data true, Slot.mk "two".data false]) ∧
    handleRecognitionResult [] (EditorState.mk false true [] (some []))
        (RecognitionEvent.mk 0 [Slot.mk "hi".data false]) =
      handleFinalTranscript []
        { EditorState.mk false true [] (some []) with
          finalTranscript :=
            [] ++ finalsConcat ((RecognitionEvent.mk 0
              [Slot.mk "hi".data false]).results.drop 0),
          preview := some (processTextWithPunctuation
            (interimConcat ((RecognitionEvent.mk 0
              [Slot.mk "hi".data false]).results.drop 0))) } :=
  ⟨claim6_result_event.1 [Slot.mk "one".data true, Slot.mk "two".data false] [],
   claim6_result_event.2.1 [] (EditorState.mk false true [] (some []))
     (RecognitionEvent.mk 0 [Slot.mk "hi".data false]) (by decide) (by decide)⟩

/-- Counterexample to C7 as stated: the stop branch of the toggle does not
reset the accumulator — from a state with `finalTranscript = "x"`, stopping
leaves it `"x"`, not empty.  (The error and end handlers likewise leave the
field untouched.) -/
theorem claim7_counterexample :
    (handleAction true (EditorState.mk true true "x".data (some []))).finalTranscript
        = "x".data ∧
    (onRecognitionError (EditorState.mk true true "x".data (some []))).finalTranscript
        = "x".data ∧
    "x".data ≠ ([] : List Char) := by
  decide

/-- C7 (amended): the pending final accumulator is reset to empty after each
successful commit, and every result event leaves it empty; the stop, error
and end handlers do not modify it, but since the accumulator is empty in
every state reachable from an empty-accumulator start, no
accumulated-but-uncommitted fragment survives a stop or failure. -/
theorem claim7_pending_final_lifecycle :
    (∀ (doc : List Char) (st : EditorState), st.finalTranscript ≠ [] →
        (handleFinalTranscript doc st).2.finalTranscript = [])
    ∧ (∀ (doc : List Char) (st : EditorState) (ev : RecognitionEvent),
        (handleRecognitionResult doc st ev).2.finalTranscript = [])
    ∧ (∀ (st : EditorState) (startOk : Bool), st.listening = true →
        (handleAction startOk st).finalTranscript = st.finalTranscript)
    ∧ (∀ st : EditorState,
        (onRecognitionError st).finalTranscript = st.finalTranscript ∧
        (onRecognitionEnd st).finalTranscript = st.finalTranscript ∧
        (closePreviewClick st).finalTranscript = st.finalTranscript)
    ∧ (∀ (events : List SessionEv) (s : Sys), s.st.finalTranscript = [] →
        (sysRun s events).st.finalTranscript = []) := by
  refine ⟨fun doc st _ => handleFinalTranscript_resets doc st, ?_, ?_, ?_, ?_⟩
  · intro doc st ev
    simp only [handleRecognitionResult]
    exact handleFinalTranscript_resets doc _
  · intro st startOk h
    unfold handleAction
    rw [h]
    simp [hidePreview]
  · intro st
    refine ⟨rfl, rfl, ?_⟩
    unfold closePreviewClick hidePreview
    by_cases hc : (st.listening && st.recognitionInit) = true
    · rw [if_pos hc]
    · rw [if_neg hc]
  · intro events
    induction events with
    | nil => intro s h; exact h
    | cons e es ih =>
      intro s h
      show (sysRun (sysStep s e) es).st.finalTranscript = []
      refine ih _ ?_
      cases e with
      | action startOk =>
        show (handleAction startOk s.st).finalTranscript = []
        unfold handleAction
        by_cases hl : s.st.listening = true
        · rw [hl]; simpa [hidePreview] using h
        · simp only [Bool.not_eq_true] at hl
          rw [hl]
          by_cases hok : startOk = true
          · rw [hok]; simpa using h
          · simp only [Bool.not_eq_true] at hok
            rw [hok]; simpa [hidePreview] using h
      | result ev =>
        show (if s.sourceActive = true then _ else s).st.finalTranscript = []
        by_cases ha : s.sourceActive = true
        · rw [if_pos ha]
          simp only [handleRecognitionResult]
          exact handleFinalTranscript_resets s.doc _
        · rw [if_neg ha]; exact h
      | error => simpa [onRecognitionError, hidePreview] using h
      | ended => simpa [onRecognitionEnd, hidePreview] using h
      | closeClick =>
        show (closePreviewClick s.st).finalTranscript = []
        unfold closePreviewClick hidePreview
        by_cases hc : (s.st.listening && s.st.recognitionInit) = true
        · rw [if_pos hc]; exact h
        · rw [if_neg hc]; exact h

/-- Witness for the amended C7: committing a concrete non-empty accumulator
clears it, and a run containing a stop and an error keeps it empty. -/
theorem claim7_pending_final_lifecycle_witness :
    (handleFinalTranscript [] (EditorState.mk true true "hi".data (some []))).2.finalTranscript
        = [] ∧
    (handleAction true (EditorState.mk true true [] (some []))).finalTranscript
        = (EditorState.mk true true [] (some [])).finalTranscript ∧
    (sysRun (Sys.mk [] (EditorState.mk true true [] (some [])) true)
        [SessionEv.result (RecognitionEvent.mk 0 [Slot.mk "go".data true]),
         SessionEv.action true, SessionEv.error]).st.finalTranscript = [] :=
  ⟨claim7_pending_final_lifecycle.1 [] (EditorState.mk true true "hi".data (some []))
      (by decide),
   claim7_pending_final_lifecycle.2.2.1 (EditorState.mk true true [] (some []))
      true (by decide),
   claim7_pending_final_lifecycle.2.2.2.2
      [SessionEv.result (RecognitionEvent.mk 0 [Slot.mk "go".data true]),
       SessionEv.action true, SessionEv.error]
      (Sys.mk [] (EditorState.mk true true [] (some [])) true) (by decide)⟩

/-- C8: from Listening, the stop action and a recognition error or end event
always yield Idle (`listening = false`) with the preview hidden, and the
stopped source delivers no further result events until the next start; the
transition is unconditional and idempotent, and invoking the stop path while
already Idle is a no-op rather than an error. -/
theorem claim8_stop_transitions :
    (∀ (st : EditorState) (startOk : Bool), st.listening = true →
        handleAction startOk st = hidePreview { st with listening := false } ∧
        (handleAction startOk st).listening = false ∧
        (handleAction startOk st).preview = none)
    ∧ (∀ st : EditorState,
        (onRecognitionError st).listening = false ∧
        (onRecognitionError st).preview = none ∧
        (onRecognitionEnd st).listening = false ∧
        (onRecognitionEnd st).preview = none)
    ∧ (∀ st : EditorState,
        onRecognitionError (onRecognitionError st) = onRecognitionError st ∧
        onRecognitionEnd (onRecognitionEnd st) = onRecognitionEnd st ∧
        closePreviewClick (closePreviewClick st) = closePreviewClick st)
    ∧ (∀ st : EditorState, st.listening = false → st.preview = none →
        closePreviewClick st = st ∧ onRecognitionError st = st ∧
        onRecognitionEnd st = st)
    ∧ (∀ (s : Sys) (startOk : Bool), s.st.listening = true →
        (sysStep s (SessionEv.action startOk)).sourceActive = false ∧
        (sysStep s SessionEv.error).sourceActive = false ∧
        (sysStep s SessionEv.ended).sourceActive = false)
    ∧ (∀ (s : Sys) (events : List SessionEv), s.sourceActive = false →
        (∀ e ∈ events, ∃ ev, e = SessionEv.result ev) →
        sysRun s events = s) := by
  refine ⟨?_, ?_, ?_, ?_, ?_, ?_⟩
  · intro st startOk h
    have he : handleAction startOk st = hidePreview { st with listening := false } := by
      unfold handleAction
      rw [h]
      simp
    exact ⟨he, by rw [he]; rfl, by rw [he]; rfl⟩
  · intro st
    exact ⟨rfl, rfl, rfl, rfl⟩
  · intro st
    obtain ⟨ri, li, ft, pv⟩ := st
    refine ⟨rfl, rfl, ?_⟩
    cases li <;> cases ri <;> simp [closePreviewClick, hidePreview]
  · intro st hl hp
    obtain ⟨ri, li, ft, pv⟩ := st
    change li = false at hl
    change pv = none at hp
    subst hl
    subst hp
    exact ⟨rfl, rfl, rfl⟩
  · intro s startOk h
    refine ⟨?_, rfl, rfl⟩
    show (if !s.st.listening then _ else false) = false
    rw [h]
    simp
  · intro s events
    induction events with
    | nil => intro _ _; rfl
    | cons e es ih =>
      intro h hall
      obtain ⟨ev, rfl⟩ := hall e (List.mem_cons_self _ _)
      show sysRun (sysStep s (SessionEv.result ev)) es = s
      have hstep : sysStep s (SessionEv.result ev) = s := by
        show (if s.sourceActive = true then _ else s) = s
        rw [if_neg]
        rw [h]
        simp
      rw [hstep]
      exact ih h fun e' he' => hall e' (List.mem_cons_of_mem _ he')

/-- Witness for C8: a concrete Listening state is stopped by the toggle, an
Idle state with hidden preview is unchanged by the close-button stop path,
and a stopped source delivers no result event. -/
theorem claim8_stop_transitions_witness :
    handleAction true (EditorState.mk true true [] (some [])) =
      hidePreview { EditorState.mk true true [] (some []) with listening := false } ∧
    closePreviewClick (EditorState.mk true false [] none) =
      EditorState.mk true false [] none ∧
    sysRun (Sys.mk [] (EditorState.mk true false [] none) false)
        [SessionEv.result (RecognitionEvent.mk 0 [Slot.mk "late".data true])] =
      Sys.mk [] (EditorState.mk true false [] none) false :=
  ⟨(claim8_stop_transitions.1 (EditorState.mk true true [] (some [])) true
      (by decide)).1,
   (claim8_stop_transitions.2.2.2.1 (EditorState.mk true false [] none)
      (by decide) (by decide)).1,
   claim8_stop_transitions.2.2.2.2.2
      (Sys.mk [] (EditorState.mk true false [] none) false)
      [SessionEv.result (RecognitionEvent.mk 0 [Slot.mk "late".data true])]
      (by decide)
      (fun e he => ⟨RecognitionEvent.mk 0 [Slot.mk "late".data true],
        by simpa using he⟩)⟩

example : prepareTextForInsertion "Hello world,".data "more text".data
    = " more text".data := by decide

example : processTextWithPunctuation "new paragraph hello".data
    = "\n\nHello".data := by decide

example : processTextWithPunctuation "semi colon test".data
    = "; test".data := by decide

example : processTextWithPunctuation "hello .x".data = "hello .x".data := by
  decide
